import Mathlib

/-
  Verification of the wordbubble text-to-layout pipeline (src/src/app.js,
  src/unnamed/part_000) against its design specification.

  The JavaScript source is shallowly embedded: JS numbers are modelled as
  rationals where the source only performs field arithmetic and comparisons,
  and as real numbers where square roots are taken; JS `undefined` values are
  modelled with `Option`; JS objects used as dictionaries are modelled as
  association lists together with the ECMAScript own-property ordering rule
  (array-index keys in ascending numeric order first, then string keys in
  insertion order).
-/

namespace WordBubble

/-- A word together with its occurrence count, as produced by `countWords`
(source lines 34-43): `Object.entries(count).map(([word, count]) => ({word, count}))`. -/
structure Word where
  word : String
  count : ℕ
deriving DecidableEq, Repr

instance : Inhabited Word := ⟨⟨"", 0⟩⟩

/-- Numeric value of a list of decimal digit characters (most significant first). -/
def decimalValue (l : List Char) : ℕ :=
  l.foldl (fun acc c => acc * 10 + (c.toNat - 48)) 0

/-- ECMAScript array-index test: a string property key is an array index when it
is the canonical decimal form of an integer below 2^32 - 1 (all digits, no
leading zero except for "0" itself).  `Object.entries` lists such keys first,
in ascending numeric order, before string keys in insertion order. -/
def isArrayIndexKey (s : String) : Bool :=
  let l := s.toList
  !l.isEmpty && l.all Char.isDigit && (l = ['0'] || l.head? != some '0')
    && decimalValue l < 2 ^ 32 - 1

/-- Own property names of `Object.prototype`.  The source tests membership with
the JS `in` operator (line 37), which also sees these inherited keys. -/
def protoKeys : List String :=
  ["constructor", "hasOwnProperty", "isPrototypeOf", "propertyIsEnumerable",
   "toLocaleString", "toString", "valueOf", "__proto__",
   "__defineGetter__", "__defineSetter__", "__lookupGetter__", "__lookupSetter__"]

def isProtoKey (s : String) : Bool := protoKeys.contains s

/-- Own-key membership in the accumulator object. -/
def hasKey (w : String) (acc : List (String × ℕ)) : Bool :=
  acc.any (fun p => p.1 == w)

/-- The JS `word in count` test of source line 37: own keys or keys inherited
from `Object.prototype`. -/
def jsIn (w : String) (acc : List (String × ℕ)) : Bool :=
  hasKey w acc || isProtoKey w

/-- The `count[word] += 1` update of source line 40, incrementing the entry for
an existing own key.  When `word` is an inherited `Object.prototype` key that is
not yet an own key, the source adds `1` to an inherited function value, coercing
it to a string; that update is not representable with numeric counts and is
modelled as a no-op here, and every theorem about `countWords` excludes such
words by hypothesis. -/
def bumpCount (w : String) (acc : List (String × ℕ)) : List (String × ℕ) :=
  acc.map (fun p => if p.1 = w then (p.1, p.2 + 1) else p)

/-- The accumulation loop of `countWords` (source lines 35-41), keeping own keys
in insertion order. -/
def countWordsAux (acc : List (String × ℕ)) : List String → List (String × ℕ)
  | [] => acc
  | w :: ws =>
      countWordsAux (if jsIn w acc then bumpCount w acc else acc ++ [(w, 1)]) ws

/-- Insert an entry into a list sorted by ascending numeric key value. -/
def insertByKeyNum (p : String × ℕ) : List (String × ℕ) → List (String × ℕ)
  | [] => [p]
  | q :: qs =>
      if decimalValue p.1.toList ≤ decimalValue q.1.toList then p :: q :: qs
      else q :: insertByKeyNum p qs

def sortByKeyNum (l : List (String × ℕ)) : List (String × ℕ) :=
  l.foldr insertByKeyNum []

/-- `Object.entries` enumeration order (source line 42): array-index keys first
in ascending numeric order, then the remaining string keys in insertion order. -/
def jsEntries (l : List (String × ℕ)) : List (String × ℕ) :=
  sortByKeyNum (l.filter (fun p => isArrayIndexKey p.1))
    ++ l.filter (fun p => !isArrayIndexKey p.1)

/-- `countWords` (source lines 34-43). -/
def countWords (ws : List String) : List Word :=
  (jsEntries (countWordsAux [] ws)).map (fun p => ⟨p.1, p.2⟩)

/-- First-occurrence order of the distinct elements of a list (accumulator form). -/
def firstOccAux (seen : List String) : List String → List String
  | [] => seen
  | w :: ws => firstOccAux (if w ∈ seen then seen else seen ++ [w]) ws

def firstOccurrences (ws : List String) : List String := firstOccAux [] ws

/-- The Frequency Counter output described by the specification (§4.2): one pair
per distinct word, count = number of occurrences, in first-occurrence order of
the distinct words.  Stated from the specification's words, for comparison with
`countWords`. -/
def countWordsSpec (ws : List String) : List Word :=
  (firstOccurrences ws).map (fun u => ⟨u, ws.count u⟩)

/-- The expected accumulator contents after counting `prev`: one entry per
distinct word of `prev` in first-occurrence order, valued by its count. -/
def tallyOf (prev : List String) : List (String × ℕ) :=
  (firstOccurrences prev).map (fun u => (u, prev.count u))

/-- The signed square root used by d3's `scaleSqrt` domain transform:
`x < 0 ? -Math.sqrt(-x) : Math.sqrt(x)`. -/
noncomputable def sqrtSigned (x : ℝ) : ℝ :=
  if x < 0 then -Real.sqrt (-x) else Real.sqrt x

/-- The radius scale of source lines 96-99: `d3.scaleSqrt().domain([cmin,
cmax]).range([minR, maxR])`.  d3 transforms the domain endpoints and the input
by the square root and interpolates the range linearly in transformed space;
when the transformed domain is degenerate it returns the constant `1/2`
normalized position (d3's `normalize(a, b)` falls back to the constant `0.5`
when `b - a` is zero), i.e. the midpoint of the range. -/
noncomputable def rScale (cmin cmax minR maxR c : ℝ) : ℝ :=
  if sqrtSigned cmax - sqrtSigned cmin = 0 then minR + 1 / 2 * (maxR - minR)
  else minR + (maxR - minR) *
    ((sqrtSigned c - sqrtSigned cmin) / (sqrtSigned cmax - sqrtSigned cmin))

/-- The radius law asserted by the claim, stated from the claim's words for
comparison with `rScale`: `minR + (maxR − minR) · sqrt((c − cmin)/(cmax − cmin))`. -/
noncomputable def rScaleClaim (cmin cmax minR maxR c : ℝ) : ℝ :=
  minR + (maxR - minR) * Real.sqrt ((c - cmin) / (cmax - cmin))

/-- Minimum of a list of counts, as computed by `d3.extent` (source line 98);
`0` stands in for the unused value on the empty list. -/
def listMinN : List ℕ → ℕ
  | [] => 0
  | x :: xs => xs.foldl min x

/-- Maximum of a list of counts, as computed by `d3.extent` (source line 98). -/
def listMaxN : List ℕ → ℕ
  | [] => 0
  | x :: xs => xs.foldl max x

/-- A Word after the enrichment loop of source lines 100-105: position, initial
position, cluster id, and radius have been attached. -/
structure PlacedWord where
  word : String
  count : ℕ
  x : ℝ
  y : ℝ
  x0 : ℝ
  y0 : ℝ
  group : ℕ
  r : ℝ

noncomputable instance : Inhabited PlacedWord := ⟨⟨"", 0, 0, 0, 0, 0, 0, 0⟩⟩

/-- The projection of a `PlacedWord` onto the fields that the layout relaxation
never writes: everything except `x` and `y`. -/
def frameOf (w : PlacedWord) : String × ℕ × ℝ × ℝ × ℕ × ℝ :=
  (w.word, w.count, w.x0, w.y0, w.group, w.r)

/-- The per-word enrichment loop of source lines 100-105, walking the three
parallel lists: `word.x = word.x0 = xy[i][0] * 600; word.y = word.y0 =
xy[i][1] * 600; word.group = groups[i]; word.r = rScale(word.count)`.  The
source's `forEach` requires one projection row and one cluster id per word;
the theorems below carry that as length hypotheses. -/
noncomputable def enrichAux (minR maxR cmin cmax : ℝ) :
    List Word → List (ℝ × ℝ) → List ℕ → List PlacedWord
  | w :: ws, p :: ps, g :: gs =>
      ⟨w.word, w.count, p.1 * 600, p.2 * 600, p.1 * 600, p.2 * 600, g,
        rScale cmin cmax minR maxR (w.count : ℝ)⟩ ::
      enrichAux minR maxR cmin cmax ws ps gs
  | _, _, _ => []

/-- Source lines 96-105: build the radius scale over the extent of the counts
and enrich each word. -/
noncomputable def enrich (minR maxR : ℝ) (ws : List Word) (xy : List (ℝ × ℝ))
    (groups : List ℕ) : List PlacedWord :=
  enrichAux minR maxR (listMinN (ws.map Word.count) : ℕ) (listMaxN (ws.map Word.count) : ℕ)
    ws xy groups

/-- `tokenize` (source lines 25-32): the external tokenizer capability `tok`
produces the base forms, and only words present in the vocabulary are kept. -/
def tokenizeM (tok : String → List String) (vocab : String → Option ℕ)
    (text : String) : List String :=
  (tok text).filter (fun w => (vocab w).isSome)

/-- `inference` (source lines 18-23): `words.map(({word}) =>
weight[vocabulary[word]])`.  A word absent from the vocabulary makes
`vocabulary[word]` undefined and hence `weight[undefined]` undefined, modelled
by `Option.bind` producing `none`; no error is raised. -/
def inference (vocab : String → Option ℕ) (weight : ℕ → Option (List ℝ))
    (words : List Word) : List (Option (List ℝ)) :=
  words.map (fun w => (vocab w.word).bind weight)

/-- Squared Euclidean distance between particle centres. -/
noncomputable def dist2 (p q : ℝ × ℝ) : ℝ := (p.1 - q.1) ^ 2 + (p.2 - q.2) ^ 2

noncomputable def posOf (w : PlacedWord) : ℝ × ℝ := (w.x, w.y)

/-- Modelled from the spec: the many-body "charge" force of §4.7 with strength
constant 10, inversely related to distance; the d3-force library internals are
not under src/ (source lines 67-69 only configure the library). -/
noncomputable def chargeDelta (ws : List PlacedWord) (i : ℕ) : ℝ × ℝ :=
  ((List.range ws.length).filter (fun j => j != i)).foldl
    (fun acc j =>
      let pi := posOf (ws.getD i default)
      let pj := posOf (ws.getD j default)
      (acc.1 + 10 * (pi.1 - pj.1) / dist2 pi pj,
       acc.2 + 10 * (pi.2 - pj.2) / dist2 pi pj))
    (0, 0)

/-- Modelled from the spec: one collision-resolution pass of §4.7, using each
particle's radius plus 1 unit of padding; overlapping pairs receive a
separating velocity correction.  d3-force internals are not under src/
(source lines 70-76 only configure the library). -/
noncomputable def collidePass (ws : List PlacedWord) (vs : List (ℝ × ℝ)) :
    List (ℝ × ℝ) :=
  (List.range ws.length).map (fun i =>
    ((List.range ws.length).filter (fun j => j != i)).foldl
      (fun acc j =>
        let wi := ws.getD i default
        let wj := ws.getD j default
        let rsum := wi.r + 1 + (wj.r + 1)
        let d := Real.sqrt (dist2 (posOf wi) (posOf wj))
        if d < rsum then
          (acc.1 + (wi.x - wj.x) / d * (rsum - d) / 2,
           acc.2 + (wi.y - wj.y) / d * (rsum - d) / 2)
        else acc)
      (vs.getD i (0, 0)))

/-- Modelled from the spec: the collision force runs an internal
constraint-solving pass 30 times per simulation tick (§4.7). -/
noncomputable def collideForce (ws : List PlacedWord) (vs : List (ℝ × ℝ)) :
    List (ℝ × ℝ) :=
  (fun l => collidePass ws l)^[30] vs

/-- Modelled from the spec: the two centering restoring forces of §4.7 pulling
each particle toward x = 0 and y = 0. -/
noncomputable def centerDelta (w : PlacedWord) : ℝ × ℝ :=
  ((0 - w.x) * (1 / 10), (0 - w.y) * (1 / 10))

/-- Modelled from the spec: accumulate the velocity contributions of the three
force kinds of §4.7 for one simulation tick. -/
noncomputable def applyForces (ws : List PlacedWord) (vs : List (ℝ × ℝ)) :
    List (ℝ × ℝ) :=
  collideForce ws
    ((List.range ws.length).map (fun i =>
      let v := vs.getD i (0, 0)
      let c := chargeDelta ws i
      let k := centerDelta (ws.getD i default)
      (v.1 + c.1 + k.1, v.2 + c.2 + k.2)))

/-- Modelled from the spec: one discrete simulation tick — forces update the
velocities, velocities integrate into the positions, and only the `x` and `y`
fields of each word are written (§4.7). -/
noncomputable def tick (s : List PlacedWord × List (ℝ × ℝ)) :
    List PlacedWord × List (ℝ × ℝ) :=
  (List.zipWith (fun w v => { w with x := w.x + v.1, y := w.y + v.2 })
      s.1 (applyForces s.1 s.2),
   applyForces s.1 s.2)

/-- `improveLayout` (source lines 66-80): the d3 force simulation over the word
list, run for exactly 100 ticks (`simulation.tick(100).stop()`), starting from
zero velocities.  The force bodies are modelled from the spec (§4.7) since the
d3-force library internals are not under src/; the source mutates the words in
place and `visualize` returns the same array, modelled by returning the updated
list. -/
noncomputable def improveLayout (ws : List PlacedWord) : List PlacedWord :=
  (tick^[100] (ws, List.replicate ws.length (0, 0))).1

/-- `visualize` (source lines 82-110).  The dimensionality reducer `red`
(tsne-js, §4.4) and the clusterer `clus` (skmeans, §4.5) are external library
capabilities whose code is not under src/; they are taken as parameters, the
source orchestration around them being embedded faithfully. -/
noncomputable def visualize (tok : String → List String) (vocab : String → Option ℕ)
    (weight : ℕ → Option (List ℝ)) (red : List (Option (List ℝ)) → List (ℝ × ℝ))
    (clus : List (ℝ × ℝ) → ℕ → List ℕ) (text : String) (numClusters : ℕ)
    (minR maxR : ℝ) : List PlacedWord :=
  let words := countWords (tokenizeM tok vocab text)
  let wordVector := inference vocab weight words
  let xy := red wordVector
  let groups := clus xy numClusters
  improveLayout (enrich minR maxR words xy groups)

/-- The string value a DOM attribute takes: JS stringifies a missing argument
(`undefined`) to the string "undefined" when it is set as an attribute value
(source lines 115-116 with the two-argument call of line 178). -/
def attrValue (o : Option String) : String := o.getD "undefined"

/-- One bisection round of `optimalFontSize` (source lines 122-132): probe the
midpoint `m = (ok + ng)/2`, keep it as `ok` when the halved bounding-box
diagonal fits within `r`, otherwise as `ng`. -/
def bisectStep (f : ℚ → ℚ) (r : ℚ) (p : ℚ × ℚ) : ℚ × ℚ :=
  if f ((p.1 + p.2) / 2) ≤ r then ((p.1 + p.2) / 2, p.2)
  else (p.1, (p.1 + p.2) / 2)

/-- `optimalFontSize` (source lines 112-135): 10 bisection rounds over the
range [0, 100] starting from `ok = 0`, `ng = 100`, returning `ok`.  The DOM
text measurement is the external rendering capability `measure`, mapping the
word, the `font-family` and `font-weight` attribute strings, and the probed
font size to the halved bounding-box diagonal `sqrt(width² + height²)/2`;
its values are modelled as rationals (every IEEE float is rational, and the
bisection arithmetic on dyadic rationals is exact). -/
def optimalFontSize (measure : String → String → String → ℚ → ℚ)
    (word : String) (r : ℚ) (fontFamily fontWeight : Option String) : ℚ :=
  ((bisectStep (measure word (attrValue fontFamily) (attrValue fontWeight)) r)^[10]
    (0, 100)).1

/-- The display font family of `Chart` (source line 147). -/
def chartFontFamily : String := "\x27Sawarabi Gothic\x27, sans-serif"

/-- The display font weight of `Chart` (source line 148). -/
def chartFontWeight : String := "normal"

/-- The attributes of one rendered `<text>` element in `Chart` (source lines
176-185): the displayed font family and weight are fixed, while the font size
comes from `optimalFontSize(word.word, word.r)` — a two-argument call, leaving
the `fontFamily` and `fontWeight` parameters `undefined` (`none`). -/
structure TextAttrs where
  fontFamily : String
  fontWeight : String
  fontSize : ℚ

def chartText (measure : String → String → String → ℚ → ℚ)
    (word : String) (r : ℚ) : TextAttrs :=
  { fontFamily := chartFontFamily
    fontWeight := chartFontWeight
    fontSize := optimalFontSize measure word r none none }

/-- A measurement capability whose result depends on the `font-family`
attribute: witness that the two-argument call measures a different font than
the displayed one. -/
def famSensitiveMeasure : String → String → String → ℚ → ℚ :=
  fun _ fam _ m => if fam = "undefined" then 0 else m

/-- A constant measuring capability (used to exhibit an infeasible radius). -/
def constMeasure : String → String → String → ℚ → ℚ := fun _ _ _ _ => 1

/-- A zero measuring capability (used as a concrete witness input). -/
def zeroMeasure : String → String → String → ℚ → ℚ := fun _ _ _ _ => 0

lemma mem_firstOccAux (u : String) :
    ∀ (l seen : List String), u ∈ firstOccAux seen l ↔ u ∈ seen ∨ u ∈ l := by
  intro l
  induction l with
  | nil => intro seen; simp [firstOccAux]
  | cons w ws ih =>
      intro seen
      rw [firstOccAux, ih]
      by_cases hw : w ∈ seen
      · simp only [if_pos hw, List.mem_cons]
        constructor
        · tauto
        · rintro (h | rfl | h) <;> tauto
      · simp only [if_neg hw, List.mem_append, List.mem_singleton, List.mem_cons]
        tauto

lemma firstOccAux_snoc :
    ∀ (l seen : List String) (w : String),
      firstOccAux seen (l ++ [w]) =
        if w ∈ firstOccAux seen l then firstOccAux seen l
        else firstOccAux seen l ++ [w] := by
  intro l
  induction l with
  | nil => intro seen w; simp [firstOccAux]
  | cons v vs ih =>
      intro seen w
      rw [List.cons_append, firstOccAux, firstOccAux, ih]

lemma firstOcc_snoc (prev : List String) (w : String) :
    firstOccurrences (prev ++ [w]) =
      if w ∈ prev then firstOccurrences prev else firstOccurrences prev ++ [w] := by
  rw [firstOccurrences, firstOccurrences, firstOccAux_snoc]
  by_cases h : w ∈ prev
  · rw [if_pos h, if_pos (by rw [mem_firstOccAux]; tauto)]
  · rw [if_neg h, if_neg (by rw [mem_firstOccAux]; simp [h])]

lemma firstOccAux_nodup :
    ∀ (l seen : List String), seen.Nodup → (firstOccAux seen l).Nodup := by
  intro l
  induction l with
  | nil => intro seen h; exact h
  | cons w ws ih =>
      intro seen h
      rw [firstOccAux]
      by_cases hw : w ∈ seen
      · rw [if_pos hw]; exact ih _ h
      · rw [if_neg hw]; exact ih _ (by simp [List.nodup_append, h, hw])

lemma hasKey_tallyOf (w : String) (prev : List String) :
    hasKey w (tallyOf prev) = true ↔ w ∈ prev := by
  simp only [hasKey, tallyOf, List.any_eq_true, List.mem_map]
  constructor
  · rintro ⟨p, ⟨u, hu, rfl⟩, hb⟩
    have : u = w := by simpa using hb
    subst this
    exact ((mem_firstOccAux u prev []).mp hu).resolve_left (by simp)
  · intro hw
    refine ⟨(w, prev.count w), ⟨w, ?_, rfl⟩, by simp⟩
    rw [firstOccurrences, mem_firstOccAux]; tauto

lemma bump_tallyOf {w : String} {prev : List String} (h : w ∈ prev) :
    bumpCount w (tallyOf prev) = tallyOf (prev ++ [w]) := by
  rw [bumpCount, tallyOf, tallyOf, firstOcc_snoc, if_pos h, List.map_map]
  apply List.map_congr_left
  intro u _
  by_cases huw : u = w
  · subst huw
    simp [List.count_append]
  · simp [Function.comp, huw, List.count_append, List.count_cons,
      show ¬(w = u) from fun hc => huw hc.symm]

lemma snoc_tallyOf {w : String} {prev : List String} (h : w ∉ prev) :
    tallyOf prev ++ [(w, 1)] = tallyOf (prev ++ [w]) := by
  rw [tallyOf, tallyOf, firstOcc_snoc, if_neg h, List.map_append]
  congr 1
  · apply List.map_congr_left
    intro u hu
    have hu' : u ∈ prev :=
      ((mem_firstOccAux u prev []).mp hu).resolve_left (by simp)
    have huw : ¬(w = u) := fun hc => h (hc ▸ hu')
    simp [List.count_append, List.count_cons, huw]
  · simp [List.count_append, List.count_eq_zero.mpr h]

lemma countWordsAux_tallyOf :
    ∀ (ws prev : List String), (∀ w ∈ ws, isProtoKey w = false) →
      countWordsAux (tallyOf prev) ws = tallyOf (prev ++ ws) := by
  intro ws
  induction ws with
  | nil => intro prev _; simp [countWordsAux]
  | cons w ws ih =>
      intro prev hp
      rw [countWordsAux]
      have hw : isProtoKey w = false := hp w (by simp)
      have hstep :
          (if jsIn w (tallyOf prev) then bumpCount w (tallyOf prev)
            else tallyOf prev ++ [(w, 1)]) = tallyOf (prev ++ [w]) := by
        rw [jsIn, hw, Bool.or_false]
        by_cases hmem : w ∈ prev
        · rw [if_pos ((hasKey_tallyOf w prev).mpr hmem)]
          exact bump_tallyOf hmem
        · rw [if_neg (fun hc => hmem ((hasKey_tallyOf w prev).mp hc))]
          exact snoc_tallyOf hmem
      rw [hstep, ih (prev ++ [w]) (fun u hu => hp u (by simp [hu]))]
      simp

lemma tallyOf_nil : tallyOf [] = [] := rfl

lemma countWords_eq_spec (ws : List String)
    (hidx : ∀ w ∈ ws, isArrayIndexKey w = false)
    (hproto : ∀ w ∈ ws, isProtoKey w = false) :
    countWords ws = countWordsSpec ws := by
  have haux : countWordsAux [] ws = tallyOf ws := by
    have h := countWordsAux_tallyOf ws [] hproto
    rwa [tallyOf_nil, List.nil_append] at h
  have hkeys : ∀ p ∈ tallyOf ws, isArrayIndexKey p.1 = false := by
    intro p hp
    obtain ⟨u, hu, rfl⟩ := List.mem_map.mp hp
    exact hidx u (((mem_firstOccAux u ws []).mp hu).resolve_left (by simp))
  rw [countWords, haux, jsEntries,
    List.filter_eq_nil_iff.mpr (fun p hp => by simp [hkeys p hp]),
    List.filter_eq_self.mpr (fun p hp => by simp [hkeys p hp])]
  rw [show sortByKeyNum [] = [] from rfl, List.nil_append,
    countWordsSpec, tallyOf, List.map_map]
  rfl

lemma sqrtSigned_of_nonneg {x : ℝ} (h : 0 ≤ x) : sqrtSigned x = Real.sqrt x :=
  if_neg (not_lt.2 h)

lemma rScale_eq {cmin cmax : ℝ} (minR maxR : ℝ) {c : ℝ}
    (h0 : 0 ≤ cmin) (hlt : cmin < cmax) (hc : 0 ≤ c) :
    rScale cmin cmax minR maxR c =
      minR + (maxR - minR) *
        ((Real.sqrt c - Real.sqrt cmin) / (Real.sqrt cmax - Real.sqrt cmin)) := by
  have hsq : Real.sqrt cmin < Real.sqrt cmax := Real.sqrt_lt_sqrt h0 hlt
  rw [rScale, sqrtSigned_of_nonneg h0, sqrtSigned_of_nonneg (h0.trans hlt.le),
    sqrtSigned_of_nonneg hc, if_neg (sub_ne_zero.mpr hsq.ne')]

lemma rScale_degenerate (cmin minR maxR c : ℝ) :
    rScale cmin cmin minR maxR c = (minR + maxR) / 2 := by
  rw [rScale, if_pos (sub_self _)]
  ring

lemma foldl_min_const {c : ℕ} :
    ∀ xs : List ℕ, (∀ x ∈ xs, x = c) → xs.foldl min c = c := by
  intro xs
  induction xs with
  | nil => intro _; rfl
  | cons x xs ih =>
      intro h
      rw [List.foldl_cons, h x (by simp), min_self]
      exact ih (fun y hy => h y (by simp [hy]))

lemma foldl_max_const {c : ℕ} :
    ∀ xs : List ℕ, (∀ x ∈ xs, x = c) → xs.foldl max c = c := by
  intro xs
  induction xs with
  | nil => intro _; rfl
  | cons x xs ih =>
      intro h
      rw [List.foldl_cons, h x (by simp), max_self]
      exact ih (fun y hy => h y (by simp [hy]))

lemma listMinN_const {c : ℕ} {l : List ℕ} (hne : l ≠ []) (h : ∀ x ∈ l, x = c) :
    listMinN l = c := by
  cases l with
  | nil => exact absurd rfl hne
  | cons x xs =>
      rw [listMinN, h x (by simp)]
      exact foldl_min_const xs (fun y hy => h y (by simp [hy]))

lemma listMaxN_const {c : ℕ} {l : List ℕ} (hne : l ≠ []) (h : ∀ x ∈ l, x = c) :
    listMaxN l = c := by
  cases l with
  | nil => exact absurd rfl hne
  | cons x xs =>
      rw [listMaxN, h x (by simp)]
      exact foldl_max_const xs (fun y hy => h y (by simp [hy]))

lemma enrichAux_getD (minR maxR cmin cmax : ℝ) :
    ∀ (ws : List Word) (xy : List (ℝ × ℝ)) (gs : List ℕ) (i : ℕ),
      i < ws.length → xy.length = ws.length → gs.length = ws.length →
      (enrichAux minR maxR cmin cmax ws xy gs).getD i default =
        ⟨(ws.getD i default).word, (ws.getD i default).count,
         (xy.getD i (0, 0)).1 * 600, (xy.getD i (0, 0)).2 * 600,
         (xy.getD i (0, 0)).1 * 600, (xy.getD i (0, 0)).2 * 600,
         gs.getD i 0,
         rScale cmin cmax minR maxR ((ws.getD i default).count : ℝ)⟩ := by
  intro ws
  induction ws with
  | nil => intro xy gs i hi _ _; simp at hi
  | cons w ws ih =>
      intro xy gs i hi hx hg
      cases xy with
      | nil => simp at hx
      | cons p ps =>
        cases gs with
        | nil => simp at hg
        | cons g gsl =>
          cases i with
          | zero => rfl
          | succ n =>
              rw [enrichAux]
              rw [List.getD_cons_succ, List.getD_cons_succ, List.getD_cons_succ,
                List.getD_cons_succ]
              exact ih ps gsl n (by simpa using hi) (by simpa using hx)
                (by simpa using hg)

lemma enrichAux_length (minR maxR cmin cmax : ℝ) :
    ∀ (ws : List Word) (xy : List (ℝ × ℝ)) (gs : List ℕ),
      xy.length = ws.length → gs.length = ws.length →
      (enrichAux minR maxR cmin cmax ws xy gs).length = ws.length := by
  intro ws
  induction ws with
  | nil => intro xy gs _ _; cases xy <;> cases gs <;> rfl
  | cons w ws ih =>
      intro xy gs hx hg
      cases xy with
      | nil => simp at hx
      | cons p ps =>
        cases gs with
        | nil => simp at hg
        | cons g gsl =>
            rw [enrichAux, List.length_cons, List.length_cons,
              ih ps gsl (by simpa using hx) (by simpa using hg)]

lemma zipWith_update_frame :
    ∀ (l : List PlacedWord) (v : List (ℝ × ℝ)), l.length ≤ v.length →
      (List.zipWith (fun w p => { w with x := w.x + p.1, y := w.y + p.2 }) l v).map
          frameOf = l.map frameOf := by
  intro l
  induction l with
  | nil => intro v _; simp
  | cons w ws ih =>
      intro v h
      cases v with
      | nil => simp at h
      | cons p ps =>
          rw [List.zipWith_cons_cons, List.map_cons, List.map_cons,
            ih ps (by simpa using h)]
          rfl

lemma collidePass_length (ws : List PlacedWord) (vs : List (ℝ × ℝ)) :
    (collidePass ws vs).length = ws.length := by
  simp [collidePass]

lemma collideForce_length (ws : List PlacedWord) (vs : List (ℝ × ℝ)) :
    (collideForce ws vs).length = ws.length := by
  rw [collideForce, show (30 : ℕ) = 29 + 1 from rfl, Function.iterate_succ_apply']
  exact collidePass_length ws _

lemma applyForces_length (ws : List PlacedWord) (vs : List (ℝ × ℝ)) :
    (applyForces ws vs).length = ws.length := by
  rw [applyForces, collideForce_length]

lemma tick_fst_map_frame (s : List PlacedWord × List (ℝ × ℝ)) :
    ((tick s).1).map frameOf = s.1.map frameOf := by
  rw [tick]
  exact zipWith_update_frame s.1 _ (le_of_eq (applyForces_length s.1 s.2).symm)

lemma iterate_tick_frame :
    ∀ (n : ℕ) (s : List PlacedWord × List (ℝ × ℝ)),
      ((tick^[n] s).1).map frameOf = s.1.map frameOf := by
  intro n
  induction n with
  | zero => intro s; rfl
  | succ k ih =>
      intro s
      rw [Function.iterate_succ_apply', tick_fst_map_frame, ih]

lemma improveLayout_map_frame (ws : List PlacedWord) :
    (improveLayout ws).map frameOf = ws.map frameOf := by
  rw [improveLayout, iterate_tick_frame]

lemma improveLayout_length (ws : List PlacedWord) :
    (improveLayout ws).length = ws.length := by
  have h := improveLayout_map_frame ws
  rw [← List.length_map (improveLayout ws) frameOf, h, List.length_map]

lemma map_frameOf_getD {l₁ l₂ : List PlacedWord}
    (h : l₁.map frameOf = l₂.map frameOf) (i : ℕ) :
    frameOf (l₁.getD i default) = frameOf (l₂.getD i default) := by
  have h' : (l₁[i]?).map frameOf = (l₂[i]?).map frameOf := by
    simpa using congrArg (fun t => t[i]?) h
  rw [List.getD_eq_getElem?_getD, List.getD_eq_getElem?_getD]
  cases e₁ : l₁[i]? with
  | none =>
      cases e₂ : l₂[i]? with
      | none => simp
      | some b => rw [e₁, e₂] at h'; simp at h'
  | some a =>
      cases e₂ : l₂[i]? with
      | none => rw [e₁, e₂] at h'; simp at h'
      | some b => rw [e₁, e₂] at h'; simpa using h'

lemma bisect_invariant (f : ℚ → ℚ) (r : ℚ) (hm : Monotone f) (h0 : f 0 ≤ r) :
    ∀ n : ℕ,
      f ((bisectStep f r)^[n] (0, 100)).1 ≤ r ∧
      0 ≤ ((bisectStep f r)^[n] (0, 100)).1 ∧
      ((bisectStep f r)^[n] (0, 100)).1 ≤ ((bisectStep f r)^[n] (0, 100)).2 ∧
      ((bisectStep f r)^[n] (0, 100)).2 ≤ 100 ∧
      ((bisectStep f r)^[n] (0, 100)).2 - ((bisectStep f r)^[n] (0, 100)).1
        = 100 / 2 ^ n ∧
      ∀ s : ℚ, 0 ≤ s → s ≤ 100 → f s ≤ r →
        s ≤ ((bisectStep f r)^[n] (0, 100)).2 := by
  intro n
  induction n with
  | zero =>
      refine ⟨h0, le_refl _, by norm_num, le_refl _, by norm_num, ?_⟩
      intro s _ hs _
      exact hs
  | succ k ih =>
      obtain ⟨h1, h2, h3, h4, h5, h6⟩ := ih
      rw [Function.iterate_succ_apply']
      set p := (bisectStep f r)^[k] (0, 100) with hp
      rw [bisectStep]
      by_cases hc : f ((p.1 + p.2) / 2) ≤ r
      · rw [if_pos hc]
        refine ⟨hc, by linarith, by linarith, h4, ?_, h6⟩
        rw [pow_succ, ← div_div, ← h5]
        ring
      · rw [if_neg hc]
        refine ⟨h1, h2, by linarith, by linarith, ?_, ?_⟩
        · rw [pow_succ, ← div_div, ← h5]
          ring
        · intro s hs0 hs100 hfs
          by_contra hgt
          push_neg at hgt
          exact hc (le_trans (hm hgt.le) hfs)

/-- Claim C1: after the enrichment loop of `visualize`, the i-th Word of the
Frequency Counter's output carries the i-th projection row times 600 as its
`x`/`x0` and `y`/`y0`, the i-th cluster assignment as its `group`, and a radius
computed by the radius scale from its own count; and word order is preserved by
index through the declutterer's output, which also retains `x0`, `y0` and
`group`. -/
theorem claim_C1 (ws : List Word) (xy : List (ℝ × ℝ)) (groups : List ℕ)
    (minR maxR : ℝ) (i : ℕ)
    (hxy : xy.length = ws.length) (hg : groups.length = ws.length)
    (hi : i < ws.length) :
    ((enrich minR maxR ws xy groups).getD i default).word = (ws.getD i default).word ∧
    ((enrich minR maxR ws xy groups).getD i default).count = (ws.getD i default).count ∧
    ((enrich minR maxR ws xy groups).getD i default).x = (xy.getD i (0, 0)).1 * 600 ∧
    ((enrich minR maxR ws xy groups).getD i default).x0 = (xy.getD i (0, 0)).1 * 600 ∧
    ((enrich minR maxR ws xy groups).getD i default).y = (xy.getD i (0, 0)).2 * 600 ∧
    ((enrich minR maxR ws xy groups).getD i default).y0 = (xy.getD i (0, 0)).2 * 600 ∧
    ((enrich minR maxR ws xy groups).getD i default).group = groups.getD i 0 ∧
    ((enrich minR maxR ws xy groups).getD i default).r =
      rScale (listMinN (ws.map Word.count) : ℕ) (listMaxN (ws.map Word.count) : ℕ)
        minR maxR ((ws.getD i default).count : ℝ) ∧
    (improveLayout (enrich minR maxR ws xy groups)).length = ws.length ∧
    ((improveLayout (enrich minR maxR ws xy groups)).getD i default).word
      = (ws.getD i default).word ∧
    ((improveLayout (enrich minR maxR ws xy groups)).getD i default).x0
      = (xy.getD i (0, 0)).1 * 600 ∧
    ((improveLayout (enrich minR maxR ws xy groups)).getD i default).y0
      = (xy.getD i (0, 0)).2 * 600 ∧
    ((improveLayout (enrich minR maxR ws xy groups)).getD i default).group
      = groups.getD i 0 := by
  have he := enrichAux_getD minR maxR
    ((listMinN (ws.map Word.count) : ℕ) : ℝ) ((listMaxN (ws.map Word.count) : ℕ) : ℝ)
    ws xy groups i hi hxy hg
  have hlen : (enrich minR maxR ws xy groups).length = ws.length := by
    simp only [enrich]
    exact enrichAux_length _ _ _ _ ws xy groups hxy hg
  have hf := map_frameOf_getD (improveLayout_map_frame (enrich minR maxR ws xy groups)) i
  simp only [enrich] at hf ⊢
  rw [he] at hf ⊢
  simp only [frameOf, Prod.mk.injEq] at hf
  refine ⟨rfl, rfl, rfl, rfl, rfl, rfl, rfl, rfl, ?_, hf.1, hf.2.2.1, hf.2.2.2.1,
    hf.2.2.2.2.1⟩
  rw [improveLayout_length]
  simpa only [enrich] using hlen

/-- Claim C1, witness at a concrete one-word input. -/
theorem claim_C1_witness :
    ([((1:ℝ), (2:ℝ))].length = ([⟨"a", 1⟩] : List Word).length) ∧
    ([3].length = ([⟨"a", 1⟩] : List Word).length) ∧
    (0 < ([⟨"a", 1⟩] : List Word).length) ∧
    ((enrich 6 30 [⟨"a", 1⟩] [((1:ℝ), (2:ℝ))] [3]).getD 0 default).word
      = (([⟨"a", 1⟩] : List Word).getD 0 default).word :=
  ⟨rfl, rfl, by decide,
   (claim_C1 [⟨"a", 1⟩] [((1:ℝ), (2:ℝ))] [3] 6 30 0 rfl rfl (by decide)).1⟩

/-- Claim C2 (amended): for every finite word sequence in which no word is a
canonical array-index string (all digits, no leading zero, value below
2^32 − 1) and no word is an `Object.prototype` property name, `countWords`
returns exactly one pair per distinct word, with the count equal to the word's
number of occurrences, in first-occurrence order of the distinct words.  (For
array-index words, JS object enumeration places them first in ascending numeric
order instead, and prototype-key words corrupt the accumulator.) -/
theorem claim_C2 (ws : List String)
    (hidx : ∀ w ∈ ws, isArrayIndexKey w = false)
    (hproto : ∀ w ∈ ws, isProtoKey w = false) :
    countWords ws = countWordsSpec ws ∧
    ((countWords ws).map Word.word).Nodup := by
  have he := countWords_eq_spec ws hidx hproto
  refine ⟨he, ?_⟩
  rw [he, countWordsSpec, List.map_map]
  have hid : (Word.word ∘ fun u => (⟨u, ws.count u⟩ : Word)) = id := rfl
  rw [hid, List.map_id]
  exact firstOccAux_nodup ws [] List.nodup_nil

/-- Claim C2, counterexample to the claim as stated: for the input
`["b", "0"]`, JS object key enumeration lists the array-index key "0" before
the insertion-ordered key "b", so the output is not in first-occurrence
order. -/
theorem claim_C2_counterexample :
    countWords ["b", "0"] ≠ countWordsSpec ["b", "0"] := by decide

/-- Claim C2, witness: the specification's own example input. -/
theorem claim_C2_witness :
    (∀ w ∈ ["a", "b", "a", "c", "b", "a"], isArrayIndexKey w = false) ∧
    (∀ w ∈ ["a", "b", "a", "c", "b", "a"], isProtoKey w = false) ∧
    countWords ["a", "b", "a", "c", "b", "a"]
      = countWordsSpec ["a", "b", "a", "c", "b", "a"] ∧
    ((countWords ["a", "b", "a", "c", "b", "a"]).map Word.word).Nodup :=
  ⟨by decide, by decide, (claim_C2 _ (by decide) (by decide)).1,
   (claim_C2 _ (by decide) (by decide)).2⟩

/-- Claim C3 (amended): with the counts' minimum strictly below their maximum,
the d3 `scaleSqrt` radius is `minR + (maxR − minR) · (√c − √cmin)/(√cmax −
√cmin)` (linear interpolation in square-root-transformed space, not
`minR + (maxR − minR) · √((c − cmin)/(cmax − cmin))`); words with the minimum
count get exactly `minR`, words with the maximum count exactly `maxR`, and the
mapping is monotone. -/
theorem claim_C3 (cmin cmax minR maxR : ℝ)
    (h0 : 0 ≤ cmin) (hlt : cmin < cmax) (hR : minR ≤ maxR) :
    (∀ c, 0 ≤ c → rScale cmin cmax minR maxR c =
      minR + (maxR - minR) *
        ((Real.sqrt c - Real.sqrt cmin) / (Real.sqrt cmax - Real.sqrt cmin))) ∧
    rScale cmin cmax minR maxR cmin = minR ∧
    rScale cmin cmax minR maxR cmax = maxR ∧
    (∀ c1 c2, 0 ≤ c1 → c1 ≤ c2 →
      rScale cmin cmax minR maxR c1 ≤ rScale cmin cmax minR maxR c2) ∧
    (∀ c1 c2, c1 = c2 →
      rScale cmin cmax minR maxR c1 = rScale cmin cmax minR maxR c2) := by
  have hsq : Real.sqrt cmin < Real.sqrt cmax := Real.sqrt_lt_sqrt h0 hlt
  have hD : 0 < Real.sqrt cmax - Real.sqrt cmin := sub_pos.mpr hsq
  refine ⟨fun c hc => rScale_eq minR maxR h0 hlt hc, ?_, ?_, ?_, ?_⟩
  · rw [rScale_eq minR maxR h0 hlt h0, sub_self, zero_div, mul_zero, add_zero]
  · rw [rScale_eq minR maxR h0 hlt (h0.trans hlt.le), div_self hD.ne', mul_one]
    ring
  · intro c1 c2 hc1 hle
    rw [rScale_eq minR maxR h0 hlt hc1, rScale_eq minR maxR h0 hlt (hc1.trans hle)]
    have hmono : Real.sqrt c1 ≤ Real.sqrt c2 := Real.sqrt_le_sqrt hle
    have hdiv : (Real.sqrt c1 - Real.sqrt cmin) / (Real.sqrt cmax - Real.sqrt cmin)
        ≤ (Real.sqrt c2 - Real.sqrt cmin) / (Real.sqrt cmax - Real.sqrt cmin) :=
      (div_le_div_iff_of_pos_right hD).mpr (by linarith)
    exact add_le_add_left
      (mul_le_mul_of_nonneg_left hdiv (by linarith : (0:ℝ) ≤ maxR - minR)) minR
  · intro c1 c2 h
    rw [h]

/-- Claim C3, counterexample to the claim as stated: with domain [1, 4] and
range [0, 1], the claimed law gives `√(1/3)` at count 2 while d3's `scaleSqrt`
gives `√2 − 1`; they differ. -/
theorem claim_C3_counterexample :
    rScale 1 4 0 1 2 ≠ rScaleClaim 1 4 0 1 2 := by
  have h1 : Real.sqrt 1 = 1 := Real.sqrt_one
  have h4 : Real.sqrt 4 = 2 := by
    rw [show (4:ℝ) = 2 ^ 2 by norm_num, Real.sqrt_sq (by norm_num : (0:ℝ) ≤ 2)]
  have e : rScale 1 4 0 1 2 = Real.sqrt 2 - 1 := by
    rw [rScale_eq 0 1 (by norm_num) (by norm_num) (by norm_num), h1, h4]
    norm_num
  have e' : rScaleClaim 1 4 0 1 2 = Real.sqrt (1/3) := by
    rw [rScaleClaim]
    norm_num
  rw [e, e']
  intro heq
  have h2 : Real.sqrt 2 ^ 2 = 2 := Real.sq_sqrt (by norm_num)
  have h3 : Real.sqrt (1/3) ^ 2 = (1:ℝ)/3 := Real.sq_sqrt (by norm_num)
  have hsqr : (Real.sqrt 2 - 1) ^ 2 = (1:ℝ)/3 := by rw [heq]; exact h3
  have h43 : Real.sqrt 2 = 4/3 := by linear_combination (h2 - hsqr) / 2
  rw [h43] at h2
  norm_num at h2

/-- Claim C3, witness for the amended theorem at domain [1, 4], range [6, 30]. -/
theorem claim_C3_witness :
    (0:ℝ) ≤ 1 ∧ (1:ℝ) < 4 ∧ (6:ℝ) ≤ 30 ∧
    rScale 1 4 6 30 1 = 6 ∧ rScale 1 4 6 30 4 = 30 :=
  ⟨by norm_num, by norm_num, by norm_num,
   (claim_C3 1 4 6 30 (by norm_num) (by norm_num) (by norm_num)).2.1,
   (claim_C3 1 4 6 30 (by norm_num) (by norm_num) (by norm_num)).2.2.1⟩

/-- Claim C4: the code contradicts the specified lookup-error contract.  For a
word list containing a word absent from the vocabulary, `inference` does not
fail: it resolves normally and silently maps the word to the undefined vector
(`weight[vocabulary[word]]` with an undefined index), modelled as `none`. -/
theorem claim_C4 :
    inference (fun _ => none) (fun _ => none) [⟨"w", 1⟩] = [none] := rfl

/-- Claim C5: for an input text that the tokenizer maps to the empty word
sequence, and external reducer/clusterer capabilities that (per their
contracts, §4.4-§4.5) return one output per input point, the whole `visualize`
pipeline returns the empty word list without error. -/
theorem claim_C5 (tok : String → List String) (vocab : String → Option ℕ)
    (weight : ℕ → Option (List ℝ)) (red : List (Option (List ℝ)) → List (ℝ × ℝ))
    (clus : List (ℝ × ℝ) → ℕ → List ℕ) (text : String) (numClusters : ℕ)
    (minR maxR : ℝ)
    (htok : tok text = [])
    (hred : red [] = [])
    (hclus : ∀ k, clus [] k = []) :
    visualize tok vocab weight red clus text numClusters minR maxR = [] := by
  have hnil : improveLayout [] = [] := by
    have h := improveLayout_length ([] : List PlacedWord)
    exact List.length_eq_zero.mp (by simpa using h)
  simp only [visualize, tokenizeM, htok, List.filter_nil]
  rw [show countWords [] = [] from rfl]
  rw [show inference vocab weight [] = [] from rfl, hred, hclus]
  rw [show enrich minR maxR [] [] [] = [] from rfl]
  exact hnil

/-- Claim C5, witness: concrete empty-input capabilities. -/
theorem claim_C5_witness :
    ((fun _ : String => ([] : List String)) "" = []) ∧
    visualize (fun _ => []) (fun _ => none) (fun _ => none) (fun _ => [])
      (fun _ _ => []) "" 5 6 30 = [] :=
  ⟨rfl, claim_C5 _ _ _ _ _ _ _ _ _ rfl rfl (fun _ => rfl)⟩

/-- Claim C7: the layout relaxation writes only the `x` and `y` fields: after
`improveLayout`, every word's `word`, `count`, `x0`, `y0`, `group` and `r`
fields — and the length and order of the list — are unchanged. -/
theorem claim_C7 (ws : List PlacedWord) :
    (improveLayout ws).map frameOf = ws.map frameOf :=
  improveLayout_map_frame ws

/-- Claim C8 (amended): for a rendering capability whose halved bounding-box
diagonal is monotone in the font size and fits the radius at font size 0,
`optimalFontSize` is exactly 10 bisection rounds over [0, 100] and returns a
size at which the halved diagonal fits within `r`, within `100/2^10` of every
fitting size in [0, 100].  (Without the fit-at-0 hypothesis the returned `ok =
0` is never measured and need not fit, see the counterexample.) -/
theorem claim_C8 (measure : String → String → String → ℚ → ℚ) (word : String)
    (r : ℚ) (fontFamily fontWeight : Option String)
    (hmono : Monotone (measure word (attrValue fontFamily) (attrValue fontWeight)))
    (h0 : measure word (attrValue fontFamily) (attrValue fontWeight) 0 ≤ r) :
    optimalFontSize measure word r fontFamily fontWeight =
      ((bisectStep (measure word (attrValue fontFamily) (attrValue fontWeight)) r)^[10]
        (0, 100)).1 ∧
    measure word (attrValue fontFamily) (attrValue fontWeight)
      (optimalFontSize measure word r fontFamily fontWeight) ≤ r ∧
    0 ≤ optimalFontSize measure word r fontFamily fontWeight ∧
    optimalFontSize measure word r fontFamily fontWeight ≤ 100 ∧
    ∀ s : ℚ, 0 ≤ s → s ≤ 100 →
      measure word (attrValue fontFamily) (attrValue fontWeight) s ≤ r →
      s ≤ optimalFontSize measure word r fontFamily fontWeight + 100 / 2 ^ 10 := by
  obtain ⟨h1, h2, h3, h4, h5, h6⟩ :=
    bisect_invariant (measure word (attrValue fontFamily) (attrValue fontWeight)) r
      hmono h0 10
  have hrw : optimalFontSize measure word r fontFamily fontWeight =
      ((bisectStep (measure word (attrValue fontFamily) (attrValue fontWeight)) r)^[10]
        (0, 100)).1 := rfl
  refine ⟨hrw, ?_, ?_, ?_, ?_⟩
  · rw [hrw]; exact h1
  · rw [hrw]; exact h2
  · rw [hrw]; exact h3.trans h4
  · intro s hs0 hs1 hfs
    rw [hrw]
    linarith [h5, h6 s hs0 hs1 hfs]

/-- Claim C8, counterexample to the claim as stated: a constant (hence
monotone) halved diagonal of 1 with radius 0 makes every probe fail, so the
returned `ok = 0` was never measured and the diagonal does not fit there. -/
theorem claim_C8_counterexample :
    Monotone (constMeasure "w" (attrValue none) (attrValue none)) ∧
    optimalFontSize constMeasure "w" 0 none none = 0 ∧
    ¬ constMeasure "w" (attrValue none) (attrValue none)
        (optimalFontSize constMeasure "w" 0 none none) ≤ 0 :=
  ⟨monotone_const, by decide, by decide⟩

/-- Claim C8, witness for the amended theorem: the zero measurement always
fits. -/
theorem claim_C8_witness :
    Monotone (zeroMeasure "a" (attrValue none) (attrValue none)) ∧
    zeroMeasure "a" (attrValue none) (attrValue none) 0 ≤ 0 ∧
    zeroMeasure "a" (attrValue none) (attrValue none)
      (optimalFontSize zeroMeasure "a" 0 none none) ≤ 0 :=
  ⟨monotone_const, le_refl 0,
   (claim_C8 zeroMeasure "a" 0 none none monotone_const (le_refl 0)).2.1⟩

/-- Claim C9: when every word has the same count the scale's domain collapses
and every word receives the same radius, the midpoint `(minR + maxR)/2` of the
configured range — not `minR` and not an error. -/
theorem claim_C9 (ws : List Word) (xy : List (ℝ × ℝ)) (groups : List ℕ)
    (minR maxR : ℝ) (c : ℕ) (i : ℕ)
    (hne : ws ≠ []) (hc : ∀ w ∈ ws, w.count = c)
    (hxy : xy.length = ws.length) (hg : groups.length = ws.length)
    (hi : i < ws.length) :
    ((enrich minR maxR ws xy groups).getD i default).r = (minR + maxR) / 2 := by
  have hmapne : ws.map Word.count ≠ [] := fun h => hne (List.map_eq_nil_iff.mp h)
  have hconst : ∀ x ∈ ws.map Word.count, x = c := by
    intro x hx
    obtain ⟨w, hw, rfl⟩ := List.mem_map.mp hx
    exact hc w hw
  have hmin : listMinN (ws.map Word.count) = c := listMinN_const hmapne hconst
  have hmax : listMaxN (ws.map Word.count) = c := listMaxN_const hmapne hconst
  simp only [enrich]
  rw [enrichAux_getD minR maxR _ _ ws xy groups i hi hxy hg]
  simp only [hmin, hmax]
  exact rScale_degenerate _ _ _ _

/-- Claim C9, witness: a single word of count 2 with range [6, 30] gets radius
18. -/
theorem claim_C9_witness :
    ([⟨"a", 2⟩] : List Word) ≠ [] ∧
    ((enrich 6 30 [⟨"a", 2⟩] [((0:ℝ), (0:ℝ))] [0]).getD 0 default).r = (6 + 30) / 2 :=
  ⟨by decide,
   claim_C9 [⟨"a", 2⟩] [((0:ℝ), (0:ℝ))] [0] 6 30 2 0 (by decide) (by decide)
     rfl rfl (by decide)⟩

/-- Claim C10: `Chart` invokes `optimalFontSize` with only the word and its
radius, so the `font-family` and `font-weight` attributes are the string
"undefined" during measurement, not the display font `'Sawarabi Gothic',
sans-serif` with weight `normal` the text is rendered with; a family-sensitive
measurement then fits a different size than the display font would. -/
theorem claim_C10 :
    (∀ (measure : String → String → String → ℚ → ℚ) (word : String) (r : ℚ),
      (chartText measure word r).fontSize = optimalFontSize measure word r none none ∧
      (chartText measure word r).fontFamily = chartFontFamily ∧
      (chartText measure word r).fontWeight = chartFontWeight ∧
      attrValue none ≠ chartFontFamily ∧
      attrValue none ≠ chartFontWeight) ∧
    optimalFontSize famSensitiveMeasure "w" 50 none none ≠
      optimalFontSize famSensitiveMeasure "w" 50 (some chartFontFamily)
        (some chartFontWeight) := by
  have hfA : famSensitiveMeasure "w" (attrValue none) (attrValue none)
      = fun _ : ℚ => (0 : ℚ) := by
    funext m
    simp [famSensitiveMeasure, attrValue]
  have hfB : famSensitiveMeasure "w" (attrValue (some chartFontFamily))
      (attrValue (some chartFontWeight)) = fun m : ℚ => m := by
    funext m
    simp [famSensitiveMeasure, attrValue, chartFontFamily]
  have hA : optimalFontSize famSensitiveMeasure "w" 50 none none = 25575 / 256 := by
    rw [optimalFontSize, hfA,
      show (10 : ℕ) = 0+1+1+1+1+1+1+1+1+1+1 from rfl]
    simp only [Function.iterate_succ_apply', Function.iterate_zero_apply]
    norm_num [bisectStep]
  have hB : optimalFontSize famSensitiveMeasure "w" 50 (some chartFontFamily)
      (some chartFontWeight) = 50 := by
    rw [optimalFontSize, hfB,
      show (10 : ℕ) = 0+1+1+1+1+1+1+1+1+1+1 from rfl]
    simp only [Function.iterate_succ_apply', Function.iterate_zero_apply]
    norm_num [bisectStep]
  refine ⟨fun measure word r => ⟨rfl, rfl, rfl, by decide, by decide⟩, ?_⟩
  rw [hA, hB]
  norm_num

end WordBubble
